import Mathlib

/-!
# Verification of the download-organizer watcher

A shallow embedding of `src/main.py`: the extension table, the category
lookup, the collision-renaming move (`FolderManager.move_file`), the
directory scan (`FolderManager.orgnanize_files`), the stability probe
(`DownloadEventHandler.is_file_stable`) and the debounced creation-event
handler (`DownloadEventHandler.on_created`).

Conventions of the embedding:
* Clock readings (`time.time()`) and sleep intervals are integers; the
  claims only compare differences of clock readings against `delay`.
* A `stat` size read that raises `FileNotFoundError` is `none`.
* The filesystem visible to the program is one watched root directory:
  a list of regular-file names directly in the root plus an association
  list from subdirectory name to the file names inside it.
* Python exceptions inside the `try` of `move_file` are modelled with
  `Except`, the error value carrying the filesystem state at the raise
  point (Python side effects are not rolled back by an exception).
-/

namespace DownloadOrganizer

/-! ## Python `pathlib` name splitting

`PurePath.suffix` returns `name[i:]` where `i = name.rfind('.')`, provided
`0 < i < len(name) - 1`, and `''` otherwise; `PurePath.stem` is the
complementary prefix. In particular a dot-file such as `".crdownload"`
has an empty suffix. -/

/-- Index of the last occurrence of `'.'` in the list, if any
(Python's `str.rfind('.')`, with `none` for `-1`). -/
def lastDot : List Char → Option Nat
  | [] => none
  | c :: cs =>
    match lastDot cs with
    | some j => some (j + 1)
    | none => if c = '.' then some 0 else none

/-- Python `PurePath.suffix` of a final path component. -/
def pathSuffix (name : String) : String :=
  match lastDot name.data with
  | some i => if 0 < i ∧ i < name.data.length - 1 then ⟨name.data.drop i⟩ else ""
  | none => ""

/-- Python `PurePath.stem` of a final path component. -/
def pathStem (name : String) : String :=
  match lastDot name.data with
  | some i => if 0 < i ∧ i < name.data.length - 1 then ⟨name.data.take i⟩ else name
  | none => name

theorem string_append_data (a b : String) : a ++ b = ⟨a.data ++ b.data⟩ := rfl

theorem pathStem_append_pathSuffix (name : String) :
    pathStem name ++ pathSuffix name = name := by
  rw [string_append_data, pathStem, pathSuffix]
  cases h : lastDot name.data with
  | none =>
    show String.mk (name.data ++ ([] : List Char)) = name
    rw [List.append_nil]
  | some i =>
    by_cases hc : 0 < i ∧ i < name.data.length - 1
    · simp only [if_pos hc]
      show String.mk (List.take i name.data ++ List.drop i name.data) = name
      rw [List.take_append_drop]
    · simp only [if_neg hc]
      show String.mk (name.data ++ ([] : List Char)) = name
      rw [List.append_nil]

/-! ## ASCII lowercasing (used only to state the case-sensitivity claim) -/

/-- Lowercase an ASCII letter, leave any other character unchanged. -/
def lowerChar (c : Char) : Char :=
  if 'A' ≤ c ∧ c ≤ 'Z' then Char.ofNat (c.toNat + 32) else c

/-- Lowercase a string character-wise (ASCII). -/
def lowerString (s : String) : String := ⟨s.data.map lowerChar⟩

/-! ## Injectivity of decimal rendering

Python's f-string `f"{file.stem}({count}){file.suffix}"` renders `count`
in decimal; distinct counters give distinct candidate names. We prove the
corresponding fact about `Nat.repr` by exhibiting a decoder. -/

/-- Numeric value of a decimal digit character. -/
def digitVal (c : Char) : Nat := c.toNat - 48

/-- Decode a decimal digit string (left fold). -/
def decodeDigits (l : List Char) : Nat := l.foldl (fun a c => 10 * a + digitVal c) 0

theorem digitVal_digitChar {n : Nat} (h : n < 10) :
    digitVal (Nat.digitChar n) = n := by
  interval_cases n <;> rfl

theorem toDigitsCore_append (fuel : Nat) :
    ∀ (n : Nat) (ds : List Char),
      Nat.toDigitsCore 10 fuel n ds = Nat.toDigitsCore 10 fuel n [] ++ ds := by
  induction fuel with
  | zero => intro n ds; rfl
  | succ fuel ih =>
    intro n ds
    simp only [Nat.toDigitsCore]
    by_cases h : n / 10 = 0
    · simp [h]
    · rw [if_neg h, if_neg h, ih (n / 10) (Nat.digitChar (n % 10) :: ds),
        ih (n / 10) [Nat.digitChar (n % 10)], List.append_assoc, List.singleton_append]

theorem decode_toDigitsCore (fuel : Nat) :
    ∀ n : Nat, n < fuel → decodeDigits (Nat.toDigitsCore 10 fuel n []) = n := by
  induction fuel with
  | zero => intro n h; omega
  | succ fuel ih =>
    intro n _
    simp only [Nat.toDigitsCore]
    by_cases h0 : n / 10 = 0
    · rw [if_pos h0]
      have hn : n < 10 := by omega
      show 10 * 0 + digitVal (Nat.digitChar (n % 10)) = n
      rw [Nat.mod_eq_of_lt hn, digitVal_digitChar hn]
      omega
    · rw [if_neg h0, toDigitsCore_append]
      have hdiv : n / 10 < fuel := by
        have h1 : n / 10 < n := Nat.div_lt_self (by omega) (by norm_num)
        omega
      show List.foldl (fun a c => 10 * a + digitVal c) 0
          (Nat.toDigitsCore 10 fuel (n / 10) [] ++ [Nat.digitChar (n % 10)]) = n
      rw [List.foldl_append]
      show 10 * decodeDigits (Nat.toDigitsCore 10 fuel (n / 10) []) +
          digitVal (Nat.digitChar (n % 10)) = n
      rw [ih (n / 10) hdiv, digitVal_digitChar (Nat.mod_lt n (by norm_num))]
      omega

theorem natRepr_injective : Function.Injective Nat.repr := by
  intro m n h
  have hdata : Nat.toDigits 10 m = Nat.toDigits 10 n := by
    have h2 := congrArg String.data h
    simpa [Nat.repr, List.asString] using h2
  have hm := decode_toDigitsCore (m + 1) m (by omega)
  have hn := decode_toDigitsCore (n + 1) n (by omega)
  rw [show Nat.toDigitsCore 10 (m + 1) m [] = Nat.toDigits 10 m from rfl] at hm
  rw [show Nat.toDigitsCore 10 (n + 1) n [] = Nat.toDigits 10 n from rfl] at hn
  rw [← hm, ← hn, hdata]

theorem toDigitsCore_ne_nil (fuel n : Nat) (ds : List Char) :
    Nat.toDigitsCore 10 (fuel + 1) n ds ≠ [] := by
  simp only [Nat.toDigitsCore]
  by_cases h : n / 10 = 0
  · simp [h]
  · rw [if_neg h, toDigitsCore_append]
    intro hc
    rcases List.append_eq_nil.mp hc with ⟨-, h2⟩
    exact List.cons_ne_nil _ _ h2

theorem natRepr_length_pos (n : Nat) : 0 < (Nat.repr n).length := by
  show 0 < (Nat.repr n).data.length
  rw [show (Nat.repr n).data = Nat.toDigits 10 n from rfl]
  have := toDigitsCore_ne_nil n n []
  cases hd : Nat.toDigits 10 n with
  | nil => exact absurd hd this
  | cons c cs => simp

/-! ## The extension table (`EXTENSIONS`, `TEMPORARY_EXTENSIONS`) -/

/-- The module-level `EXTENSIONS` dictionary, in source order. -/
def EXTENSIONS : List (String × List String) :=
  [("images", [".jpg", ".jpeg", ".png", ".gif", ".bmp", ".tiff", ".webp", ".svg",
      ".ico", ".eps", ".raw", ".cr2", ".nef"]),
   ("videos", [".mp4", ".avi", ".mkv", ".mov", ".wmv", ".flv", ".webm", ".m4v",
      ".3gp", ".mxf", ".mts", ".vob"]),
   ("documents", [".pdf", ".doc", ".docx", ".txt", ".xlsx", ".ppt", ".pptx",
      ".csv", ".odt", ".rtf", ".epub", ".odf"]),
   ("music", [".mp3", ".wav", ".flac", ".m4a", ".ogg", ".midi", ".aac", ".wma",
      ".alac", ".amr"]),
   ("programs", [".exe", ".msi", ".app", ".bat", ".cmd", ".py", ".jar", ".dll", ".sh"]),
   ("compressed", [".zip", ".rar", ".7z", ".tar", ".gz", ".bz2", ".xz", ".iso"]),
   ("databases", [".mdf", ".ndf", ".ldf", ".frm", ".ibd", ".myd", ".myi", ".sql",
      ".dump", ".conf", ".sqlite", ".sqlite3", ".db", ".db3", ".dbf", ".ctl",
      ".log", ".mdb", ".accdb", ".bkp", ".fdb", ".dbs", ".idx", ".hdb", ".bak"]),
   ("others", [])]

/-- The module-level `TEMPORARY_EXTENSIONS` set. -/
def TEMPORARY_EXTENSIONS : List String := [".crdownload", ".part", ".tmp"]

/-- `generate_extension_dictionary`: for each category, for each extension in
its list, assign `dict[ext] = category`.  A Python dict is modelled as the
list of assignments in execution order; lookups take the latest assignment. -/
def generate_extension_dictionary : List (String × String) :=
  EXTENSIONS.foldl (fun d p => d ++ p.2.map (fun e => (e, p.1))) []

/-- `dict.get(key, ...)` without the default: the value of the latest
assignment to `key`, if any. -/
def dict_get (d : List (String × String)) (k : String) : Option String :=
  d.reverse.lookup k

/-- The category selection `self.extension_dict.get(file.suffix, 'others')`
performed by `orgnanize_files` (with the file's suffix as argument). -/
def extension_category (sfx : String) : String :=
  (dict_get generate_extension_dictionary sfx).getD "others"

theorem foldl_append_map (l : List (String × List String))
    (init : List (String × String)) :
    l.foldl (fun d p => d ++ p.2.map (fun e => (e, p.1))) init =
      init ++ (l.map (fun p => p.2.map (fun e => (e, p.1)))).flatten := by
  induction l generalizing init with
  | nil => simp
  | cons p l ih => simp [ih, List.append_assoc]

theorem mem_generate_extension_dictionary {kv : String × String}
    (h : kv ∈ generate_extension_dictionary) :
    ∃ p ∈ EXTENSIONS, kv.1 ∈ p.2 ∧ kv.2 = p.1 := by
  rw [generate_extension_dictionary, foldl_append_map, List.nil_append] at h
  rcases List.mem_flatten.mp h with ⟨l, hl, hkv⟩
  rcases List.mem_map.mp hl with ⟨p, hp, rfl⟩
  rcases List.mem_map.mp hkv with ⟨e, he, hekv⟩
  exact ⟨p, hp, by rw [← hekv]; exact he, by rw [← hekv]⟩

/-- A string that is in none of the table's extension lists resolves to the
default category `"others"`. -/
theorem extension_category_eq_others_of_not_mem {s : String}
    (h : ∀ p ∈ EXTENSIONS, s ∉ p.2) : extension_category s = "others" := by
  rw [extension_category]
  have hnone : dict_get generate_extension_dictionary s = none := by
    rw [dict_get, List.lookup_eq_none_iff]
    intro kv hkv
    rcases mem_generate_extension_dictionary (List.mem_reverse.mp hkv) with
      ⟨p, hp, hk, -⟩
    have : s ≠ kv.1 := fun hs => h p hp (hs ▸ hk)
    simpa using this
  rw [hnone]
  rfl

/-! ## Collision-resolving destination choice (`move_file`, lines 56-61)

`destination = extension / file.name; count = 1;
while destination.exists(): destination = extension / f"{stem}({count}){suffix}"; count += 1`.

The `k`-th candidate name probed by the loop is `collision_candidate name k`;
the loop stops at the first candidate not present in the directory.  The
while loop has no syntactic bound, but probing `existing.length + 1`
pairwise-distinct candidates must find a free one
(`collision_search_spec` / `exists_collision_candidate_not_mem` show the
bound passed below never truncates the search). -/

/-- The `k`-th destination name probed by the collision loop: the original
name first, then `stem(1)suffix`, `stem(2)suffix`, …. -/
def collision_candidate (name : String) : Nat → String
  | 0 => name
  | k + 1 => pathStem name ++ "(" ++ Nat.repr (k + 1) ++ ")" ++ pathSuffix name

/-- The while loop: starting from candidate index `k`, return the index of
the first candidate absent from `existing` (probing at most `fuel` names). -/
def collision_search (existing : List String) (name : String) : Nat → Nat → Nat
  | 0, k => k
  | fuel + 1, k =>
    if collision_candidate name k ∈ existing then
      collision_search existing name fuel (k + 1)
    else k

/-- The destination name `move_file` finally moves to, given the names
already in the target directory. -/
def find_destination (existing : List String) (name : String) : String :=
  collision_candidate name
    (collision_search existing name (existing.length + 1) 0)

theorem data_append (a b : String) : (a ++ b).data = a.data ++ b.data := rfl

theorem collision_candidate_injective (name : String) :
    Function.Injective (collision_candidate name) := by
  have hne : ∀ k : Nat, name ≠ collision_candidate name (k + 1) := by
    intro k h
    have hd := congrArg String.data h
    have hs := congrArg String.data (pathStem_append_pathSuffix name)
    simp only [collision_candidate, data_append, List.length_append] at hd hs
    have hlen := congrArg List.length hd
    have hlens := congrArg List.length hs
    simp only [List.length_append] at hlen hlens
    have hr : 0 < (Nat.repr (k + 1)).data.length := natRepr_length_pos (k + 1)
    have hp : ("(" : String).data.length = 1 := rfl
    have hq : (")" : String).data.length = 1 := rfl
    omega
  intro i j h
  match i, j with
  | 0, 0 => rfl
  | 0, j + 1 => exact absurd h (hne j)
  | i + 1, 0 => exact absurd h.symm (hne i)
  | i + 1, j + 1 =>
    have hd := congrArg String.data h
    simp only [collision_candidate, data_append] at hd
    have hrd : (Nat.repr (i + 1)).data = (Nat.repr (j + 1)).data :=
      List.append_cancel_left (List.append_cancel_right (List.append_cancel_right hd))
    have hrepr : Nat.repr (i + 1) = Nat.repr (j + 1) := congrArg String.mk hrd
    have := natRepr_injective hrepr
    omega

theorem exists_collision_candidate_not_mem (existing : List String) (name : String) :
    ∃ k, k ≤ existing.length ∧ collision_candidate name k ∉ existing := by
  by_contra hall
  push_neg at hall
  have hsub : ∀ k ∈ Finset.range (existing.length + 1),
      collision_candidate name k ∈ existing.toFinset := by
    intro k hk
    rw [List.mem_toFinset]
    exact hall k (Nat.le_of_lt_succ (Finset.mem_range.mp hk))
  have hcard := Finset.card_le_card_of_injOn (collision_candidate name) hsub
    ((collision_candidate_injective name).injOn)
  rw [Finset.card_range] at hcard
  have h2 := existing.toFinset_card_le
  omega

theorem collision_search_spec (existing : List String) (name : String) :
    ∀ fuel start : Nat,
      (∃ j, start ≤ j ∧ j < start + fuel ∧ collision_candidate name j ∉ existing) →
      collision_candidate name (collision_search existing name fuel start) ∉ existing ∧
        start ≤ collision_search existing name fuel start ∧
        ∀ j, start ≤ j → j < collision_search existing name fuel start →
          collision_candidate name j ∈ existing := by
  intro fuel
  induction fuel with
  | zero =>
    intro start hex
    obtain ⟨j, hj1, hj2, -⟩ := hex
    omega
  | succ fuel ih =>
    intro start hex
    simp only [collision_search]
    by_cases hmem : collision_candidate name start ∈ existing
    · rw [if_pos hmem]
      have hex' : ∃ j, start + 1 ≤ j ∧ j < start + 1 + fuel ∧
          collision_candidate name j ∉ existing := by
        obtain ⟨j, hj1, hj2, hj3⟩ := hex
        refine ⟨j, ?_, by omega, hj3⟩
        rcases Nat.eq_or_lt_of_le hj1 with rfl | hlt
        · exact absurd hmem hj3
        · omega
      obtain ⟨h1, h2, h3⟩ := ih (start + 1) hex'
      refine ⟨h1, by omega, fun j hj1 hj2 => ?_⟩
      by_cases hjs : j = start
      · exact hjs ▸ hmem
      · exact h3 j (by omega) hj2
    · rw [if_neg hmem]
      exact ⟨hmem, le_refl _, fun j hj1 hj2 => absurd (hj1.trans_lt hj2) (lt_irrefl _)⟩

/-- The loop in `move_file` picks the first (lowest-index) candidate not in
the directory; in particular it never picks an existing name. -/
theorem find_destination_spec (existing : List String) (name : String) :
    ∃ k, find_destination existing name = collision_candidate name k ∧
      collision_candidate name k ∉ existing ∧
      ∀ j, j < k → collision_candidate name j ∈ existing := by
  obtain ⟨j, hj1, hj2⟩ := exists_collision_candidate_not_mem existing name
  obtain ⟨h1, -, h3⟩ := collision_search_spec existing name (existing.length + 1) 0
    ⟨j, Nat.zero_le _, by omega, hj2⟩
  exact ⟨_, rfl, h1, fun i hi => h3 i (Nat.zero_le _) hi⟩

theorem find_destination_not_mem (existing : List String) (name : String) :
    find_destination existing name ∉ existing := by
  obtain ⟨k, hk, h1, -⟩ := find_destination_spec existing name
  rw [hk]
  exact h1

/-! ## The watched root and `FolderManager`

The filesystem the program manipulates: the regular files directly in the
watched root, and the subdirectories of the root with the file names they
contain.  `mkdir_fails d` / `move_fails n` are environment oracles for the
other failure causes of `Path.mkdir` / `shutil.move` (permissions,
cross-device, races); structural failures (moving into a path that exists
as a regular file, or moving a source that is absent) are modelled
directly. -/

/-- State of the watched root directory. -/
structure FS where
  /-- Names of the regular files directly in the root. -/
  rootFiles : List String
  /-- Subdirectories of the root, each with the names of the files inside. -/
  dirs : List (String × List String)
deriving DecidableEq

/-- Contents of subdirectory `d`, if it exists. -/
def FS.dirContents (fs : FS) (d : String) : Option (List String) :=
  fs.dirs.lookup d

/-- `Path.exists()` for a direct child of the root (true for a directory or
a regular file of that name). -/
def FS.existsInRoot (fs : FS) (p : String) : Bool :=
  (fs.dirContents p).isSome || fs.rootFiles.contains p

/-- `extension.mkdir(parents=True, exist_ok=True)`: create an empty
subdirectory. -/
def FS.mkdirRoot (fs : FS) (d : String) : FS :=
  { fs with dirs := fs.dirs ++ [(d, [])] }

/-- Record a new file name inside subdirectory `d`. -/
def FS.addToDir (fs : FS) (d entry : String) : FS :=
  { fs with dirs := fs.dirs.map fun p => if p.1 = d then (p.1, p.2 ++ [entry]) else p }

/-- Remove a regular file from the root. -/
def FS.removeRootFile (fs : FS) (n : String) : FS :=
  { fs with rootFiles := fs.rootFiles.erase n }

/-- The `try` block of `FolderManager.move_file` for root file `name` and
target directory name `cat` (the `extension` path argument).  An exception
is an `Except.error` carrying the message and the filesystem state at the
raise point (Python does not roll back the side effects already made).
`shutil.move` raises when the oracle says so, when the destination parent
is not a directory, or when the source file does not exist. -/
def move_file_try (mkdir_fails move_fails : String → Bool) (fs : FS)
    (name cat : String) : Except (String × FS) FS :=
  let step1 : Except (String × FS) FS :=
    if fs.existsInRoot cat then .ok fs
    else if mkdir_fails cat then .error ("mkdir raised", fs)
    else .ok (fs.mkdirRoot cat)
  match step1 with
  | .error e => .error e
  | .ok fs1 =>
    let destination := find_destination ((fs1.dirContents cat).getD []) name
    if move_fails name || !((fs1.dirContents cat).isSome && fs1.rootFiles.contains name) then
      .error ("shutil.move raised", fs1)
    else
      .ok ((fs1.removeRootFile name).addToDir cat destination)

/-- `FolderManager.move_file`: the `try` block with its
`except Exception: print(...)` handler.  Returns the resulting filesystem
and the diagnostic message, if one was printed. -/
def move_file (mkdir_fails move_fails : String → Bool) (fs : FS)
    (name cat : String) : FS × Option String :=
  match move_file_try mkdir_fails move_fails fs name cat with
  | .ok fs' => (fs', none)
  | .error (msg, fsE) => (fsE, some ("Cannot move files or create sub folders: " ++ msg))

/-- Python's `name.startswith('.')` (the hidden-file test of the scan).
(`String.startsWith` itself is avoided: its body does not reduce in the
kernel.) -/
def startsWithDot (s : String) : Bool :=
  match s.data with
  | [] => false
  | c :: _ => c = '.'

/-- One entry yielded by `self.parent_folder.iterdir()`: a name and whether
`is_file()` holds. -/
structure Entry where
  name : String
  isFile : Bool
deriving DecidableEq

/-- The listing of the root at scan time: its regular files and its
subdirectories. -/
def rootEntries (fs : FS) : List Entry :=
  fs.rootFiles.map (fun n => ⟨n, true⟩) ++ fs.dirs.map (fun p => ⟨p.1, false⟩)

/-- The `for file in self.parent_folder.iterdir()` loop body of
`orgnanize_files`, over a fixed listing.  Returns the final filesystem, the
diagnostics printed by failed moves (in order), and the `has_files` flag. -/
def organizeGo (mkdir_fails move_fails : String → Bool) :
    FS → List Entry → Bool → FS × List String × Bool
  | fs, [], has_files => (fs, [], has_files)
  | fs, e :: es, has_files =>
    if e.isFile && !(startsWithDot e.name) then
      let cat := extension_category (pathSuffix e.name)
      let moved := move_file mkdir_fails move_fails fs e.name cat
      let rest := organizeGo mkdir_fails move_fails moved.1 es true
      (rest.1, moved.2.toList ++ rest.2.1, rest.2.2)
    else organizeGo mkdir_fails move_fails fs es has_files

/-- `FolderManager.orgnanize_files` (source spelling): scan the listing of
the root taken at call time; `has_files = false` at the end corresponds to
printing `"No files to organize"`. -/
def orgnanize_files (mkdir_fails move_fails : String → Bool) (fs : FS) :
    FS × List String × Bool :=
  organizeGo mkdir_fails move_fails fs (rootEntries fs) false

/-- Repeated dispatch of same-named files: each round a new file `name`
appears in the root and `move_file` dispatches it to directory `cat`, the
directory keeping its contents from the previous rounds. -/
def dispatchN (cat name : String) : Nat → FS
  | 0 => ⟨[], []⟩
  | n + 1 =>
    let fs := dispatchN cat name n
    (move_file (fun _ => false) (fun _ => false)
      { fs with rootFiles := [name] } name cat).1

/-! ## `DownloadEventHandler`

Clock readings (`time.time()`) are modelled as integers; the claims only
compare differences of readings against `delay`.  `on_created` reads the
clock twice in the stable branch — once for the elapsed-time computation
(line 131) and once for the value stored into `self.last_event_time`
(line 132) — so an event carries both readings, with `tRead ≤ tWrite` in
any real execution.  The outcome of the two size probes inside
`is_file_stable` is carried by the event as the oracle field `stable`. -/

/-- `is_file_stable`: read the size at `t`, sleep `stability_float`, read
again, compare; a `stat` raising `FileNotFoundError` is `none` and is
caught, giving `false`. -/
def is_file_stable (stability_float t : Int) (sizeAt : Int → Option Nat) : Bool :=
  match sizeAt t with
  | none => false
  | some initial_size =>
    match sizeAt (t + stability_float) with
    | none => false
    | some final_size => final_size == initial_size

/-- A creation event as seen by `on_created`. -/
structure Event where
  /-- `event.is_directory`. -/
  is_directory : Bool
  /-- Final component of `event.src_path` (`Path(event.src_path).name`). -/
  name : String
  /-- Result of the `self.is_file_stable(file_path)` call, were it made. -/
  stable : Bool
  /-- `time.time()` at the elapsed-time computation (line 131). -/
  tRead : Int
  /-- `time.time()` stored into `self.last_event_time` (line 132). -/
  tWrite : Int
deriving DecidableEq

/-- Result of one `on_created` call. -/
structure OnCreatedResult where
  /-- `self.last_event_time` after the call. -/
  last_event_time : Int
  /-- Whether `self.is_file_stable` was invoked. -/
  checkedStability : Bool
  /-- Whether `self.folder_manager.orgnanize_files()` was invoked. -/
  scanned : Bool
deriving DecidableEq

/-- `DownloadEventHandler.on_created`, as a transition on the stored
`last_event_time`. -/
def on_created (delay last_event_time : Int) (ev : Event) : OnCreatedResult :=
  if ev.is_directory then ⟨last_event_time, false, false⟩
  else if pathSuffix ev.name ∈ TEMPORARY_EXTENSIONS then ⟨last_event_time, false, false⟩
  else if ev.stable then
    let time_since_last_event := ev.tRead - last_event_time
    if time_since_last_event > delay then ⟨ev.tWrite, true, true⟩
    else ⟨ev.tWrite, true, false⟩
  else ⟨last_event_time, true, false⟩

/-- Process a sequence of creation events; returns the final
`last_event_time` and the number of scans triggered. -/
def runEvents (delay : Int) : Int → List Event → Int × Nat
  | last, [] => (last, 0)
  | last, ev :: evs =>
    let r := on_created delay last ev
    let rest := runEvents delay r.last_event_time evs
    (rest.1, (if r.scanned then 1 else 0) + rest.2)

/-- Consecutive events of the list arrive less than `delay` apart
(comparing the clock readings of their elapsed-time computations). -/
def burstGaps (delay : Int) : List Event → Bool
  | a :: b :: rest => decide (b.tRead - a.tRead < delay) && burstGaps delay (b :: rest)
  | _ => true

/-- An event for a stable, non-temporary regular file, with its two clock
readings in execution order. -/
def stableFileEvent (ev : Event) : Prop :=
  ev.is_directory = false ∧ pathSuffix ev.name ∉ TEMPORARY_EXTENSIONS ∧
    ev.stable = true ∧ ev.tRead ≤ ev.tWrite

instance : DecidablePred stableFileEvent := fun ev => by
  unfold stableFileEvent
  infer_instance

/-! ## Claim C5: the stability probe -/

/-- C5: `is_file_stable` reads the size, waits the probe interval, re-reads,
and returns `true` iff both reads succeeded with equal sizes; a file that
disappears between the reads gives `false` (the `FileNotFoundError` is
caught), not a raised failure. -/
theorem is_file_stable_iff (Δ t : Int) (sizeAt : Int → Option Nat) :
    (is_file_stable Δ t sizeAt = true ↔
      ∃ n, sizeAt t = some n ∧ sizeAt (t + Δ) = some n) ∧
    (∀ n, sizeAt t = some n → sizeAt (t + Δ) = none →
      is_file_stable Δ t sizeAt = false) := by
  constructor
  · rw [is_file_stable]
    cases h1 : sizeAt t with
    | none => simp [h1]
    | some a =>
      cases h2 : sizeAt (t + Δ) with
      | none => simp [h2]
      | some b =>
        simp only [beq_iff_eq]
        constructor
        · rintro rfl; exact ⟨_, rfl, rfl⟩
        · rintro ⟨n, hn1, hn2⟩
          cases hn1; cases hn2; rfl
  · intro n h1 h2
    rw [is_file_stable, h1, h2]

theorem is_file_stable_iff_witness :
    is_file_stable 1 0 (fun q => if q = 0 then some 5 else none) = false :=
  (is_file_stable_iff 1 0 _).2 5 (by decide) (by decide)

/-! ## Claim C8: category resolution is total -/

/-- C8: category resolution is a total function over strings: every
extension in the table maps to its configured category, and every other
string maps to the literal default `"others"`. -/
theorem extension_category_total :
    (∀ p ∈ EXTENSIONS, ∀ e ∈ p.2, extension_category e = p.1) ∧
    (∀ s : String, (∀ p ∈ EXTENSIONS, s ∉ p.2) → extension_category s = "others") := by
  constructor
  · decide
  · intro s h
    exact extension_category_eq_others_of_not_mem h

theorem extension_category_total_witness :
    extension_category ".zip" = "compressed" ∧ extension_category ".xyz" = "others" :=
  ⟨extension_category_total.1
      ("compressed", [".zip", ".rar", ".7z", ".tar", ".gz", ".bz2", ".xz", ".iso"])
      (by decide) ".zip" (by decide),
    extension_category_total.2 ".xyz" (by decide)⟩

/-! ## Claim C9: the lookup is case-sensitive -/

/-- C9: no case normalization happens before the dictionary lookup, so a
suffix differing from a (lowercase) table entry only in letter case is
routed to `"others"`. -/
theorem extension_category_case_sensitive (s k : String)
    (_hk : ∃ p ∈ EXTENSIONS, k ∈ p.2) (hne : s ≠ k) (hlow : lowerString s = k) :
    extension_category s = "others" := by
  apply extension_category_eq_others_of_not_mem
  intro p hp hs
  have hkeys : ∀ p ∈ EXTENSIONS, ∀ e ∈ p.2, lowerString e = e := by decide
  have h1 : lowerString s = s := hkeys p hp s hs
  exact hne (h1.symm.trans hlow)

theorem extension_category_case_sensitive_witness :
    extension_category ".JPG" = "others" :=
  extension_category_case_sensitive ".JPG" ".jpg"
    ⟨("images", [".jpg", ".jpeg", ".png", ".gif", ".bmp", ".tiff", ".webp", ".svg",
        ".ico", ".eps", ".raw", ".cr2", ".nef"]), by decide, by decide⟩
    (by decide) (by decide)

/-! ## Claim C6: temporary extensions are ignored -/

/-- C6 (amended): a non-directory creation event whose pathlib suffix is in
the temporary-extension set runs no stability check, leaves the stored
timestamp unchanged, and triggers no scan.  (The original claim quantified
over paths that merely *end* in a temporary extension; see the
counterexample for the dot-file `".crdownload"`, whose pathlib suffix is
empty.) -/
theorem temporary_suffix_ignored (delay last : Int) (ev : Event)
    (hdir : ev.is_directory = false)
    (htmp : pathSuffix ev.name ∈ TEMPORARY_EXTENSIONS) :
    on_created delay last ev = ⟨last, false, false⟩ := by
  rw [on_created]
  simp [hdir, htmp]

theorem temporary_suffix_ignored_witness :
    on_created 5 0 ⟨false, "x.crdownload", true, 3, 4⟩ = ⟨0, false, false⟩ :=
  temporary_suffix_ignored 5 0 ⟨false, "x.crdownload", true, 3, 4⟩ rfl (by decide)

/-- C6 counterexample: the path `".crdownload"` ends in the temporary
extension `".crdownload"`, but `Path(".crdownload").suffix` is `""` (a
leading dot marks a hidden file, not a suffix), so the handler does run the
stability check on such an event. -/
theorem dotfile_crdownload_checked :
    (∃ p : String, ".crdownload" = p ++ ".crdownload") ∧
    (on_created 5 0 ⟨false, ".crdownload", false, 0, 0⟩).checkedStability = true :=
  ⟨⟨"", rfl⟩, by decide⟩

/-! ## Claim C2: when the debounce timestamp is mutated -/

/-- C2 (amended): `last_event_time` is updated (to the second clock
reading) on *every* stable, non-temporary, non-directory creation event —
whether or not the event triggers a scan — and is unchanged on all other
events. -/
theorem last_event_time_update (delay last : Int) (ev : Event) :
    ((ev.is_directory = false ∧ pathSuffix ev.name ∉ TEMPORARY_EXTENSIONS ∧
        ev.stable = true) →
      (on_created delay last ev).last_event_time = ev.tWrite) ∧
    (¬(ev.is_directory = false ∧ pathSuffix ev.name ∉ TEMPORARY_EXTENSIONS ∧
        ev.stable = true) →
      (on_created delay last ev).last_event_time = last) := by
  constructor
  · rintro ⟨h1, h2, h3⟩
    rw [on_created]
    simp only [h1, h2, h3, if_false, if_true, Bool.false_eq_true, ite_false, ite_true]
    by_cases h : ev.tRead - last > delay <;> simp [h]
  · intro h
    rw [on_created]
    by_cases h1 : ev.is_directory
    · simp [h1]
    · rw [if_neg h1]
      by_cases h2 : pathSuffix ev.name ∈ TEMPORARY_EXTENSIONS
      · simp [h2]
      · rw [if_neg h2]
        by_cases h3 : ev.stable
        · exact absurd ⟨Bool.not_eq_true _ ▸ (by simpa using h1), h2, h3⟩ h
        · simp [h3]

theorem last_event_time_update_witness :
    (on_created 5 0 ⟨false, "a.pdf", true, 1, 1⟩).last_event_time = 1 ∧
    (on_created 5 0 ⟨true, "a.pdf", true, 1, 1⟩).last_event_time = 0 :=
  ⟨(last_event_time_update 5 0 ⟨false, "a.pdf", true, 1, 1⟩).1
      ⟨rfl, by decide, rfl⟩,
    (last_event_time_update 5 0 ⟨true, "a.pdf", true, 1, 1⟩).2 (by decide)⟩

/-- C2 counterexample: a stable-file event whose elapsed time does not
exceed `delay` is *not* an accepted trigger (no scan), yet the stored
timestamp changes from 0 to 1. -/
theorem last_event_time_mutated_without_trigger :
    (on_created 5 0 ⟨false, "a.pdf", true, 1, 1⟩).scanned = false ∧
    (on_created 5 0 ⟨false, "a.pdf", true, 1, 1⟩).last_event_time ≠ 0 := by
  decide

/-! ## Claim C1: a burst triggers at most one scan -/

theorem on_created_stable (delay last : Int) (ev : Event)
    (h1 : ev.is_directory = false) (h2 : pathSuffix ev.name ∉ TEMPORARY_EXTENSIONS)
    (h3 : ev.stable = true) :
    on_created delay last ev =
      ⟨ev.tWrite, true, decide (ev.tRead - last > delay)⟩ := by
  rw [on_created]
  simp only [h1, h2, h3, Bool.false_eq_true, if_false, if_true, ite_true, ite_false]
  by_cases h : ev.tRead - last > delay <;> simp [h]

theorem runEvents_no_scan (delay : Int) :
    ∀ (events : List Event) (last : Int),
      (∀ ev ∈ events, stableFileEvent ev) →
      burstGaps delay events = true →
      (∀ e, events.head? = some e → e.tRead - last ≤ delay) →
      (runEvents delay last events).2 = 0 := by
  intro events
  induction events with
  | nil => intro last _ _ _; rfl
  | cons e es ih =>
    intro last hall hgaps hhead
    obtain ⟨h1, h2, h3, h4⟩ := hall e (List.mem_cons_self e es)
    have hclose := hhead e rfl
    have hres := on_created_stable delay last e h1 h2 h3
    have hnot : decide (e.tRead - last > delay) = false := by
      simp only [decide_eq_false_iff_not]
      omega
    rw [runEvents, hres]
    simp only [hnot, Bool.false_eq_true, if_false]
    have hrest : (runEvents delay e.tWrite es).2 = 0 := by
      apply ih e.tWrite
      · intro ev hev
        exact hall ev (List.mem_cons_of_mem _ hev)
      · cases es with
        | nil => rfl
        | cons f rest =>
          rw [burstGaps] at hgaps
          exact (Bool.and_eq_true_iff.mp hgaps).2
      · intro f hf
        cases es with
        | nil => simp at hf
        | cons g rest =>
          rw [List.head?_cons, Option.some_inj] at hf
          subst hf
          rw [burstGaps] at hgaps
          have hgap := of_decide_eq_true (Bool.and_eq_true_iff.mp hgaps).1
          omega
    omega

/-- C1: in a burst of stable, non-temporary, non-directory creation events
whose consecutive arrivals are less than `delay` apart, at most one scan is
triggered; and any scan happens only on an event whose clock reading
exceeds the previously stored timestamp by more than `delay`. -/
theorem burst_at_most_one_scan (delay : Int) :
    (∀ (last : Int) (events : List Event),
      (∀ ev ∈ events, stableFileEvent ev) →
      burstGaps delay events = true →
      (runEvents delay last events).2 ≤ 1) ∧
    (∀ (last : Int) (ev : Event),
      (on_created delay last ev).scanned = true → ev.tRead - last > delay) := by
  constructor
  · intro last events hall hgaps
    cases events with
    | nil => exact Nat.zero_le 1
    | cons e es =>
      obtain ⟨h1, h2, h3, h4⟩ := hall e (List.mem_cons_self e es)
      have hres := on_created_stable delay last e h1 h2 h3
      rw [runEvents, hres]
      have hrest : (runEvents delay e.tWrite es).2 = 0 := by
        apply runEvents_no_scan delay es e.tWrite
        · intro ev hev
          exact hall ev (List.mem_cons_of_mem _ hev)
        · cases es with
          | nil => rfl
          | cons f rest =>
            rw [burstGaps] at hgaps
            exact (Bool.and_eq_true_iff.mp hgaps).2
        · intro f hf
          cases es with
          | nil => simp at hf
          | cons g rest =>
            rw [List.head?_cons, Option.some_inj] at hf
            subst hf
            rw [burstGaps] at hgaps
            have hgap := of_decide_eq_true (Bool.and_eq_true_iff.mp hgaps).1
            omega
      by_cases hsc : e.tRead - last > delay <;> simp [hsc, hrest]
  · intro last ev hscan
    rw [on_created] at hscan
    by_cases h1 : ev.is_directory
    · simp [h1] at hscan
    · rw [if_neg h1] at hscan
      by_cases h2 : pathSuffix ev.name ∈ TEMPORARY_EXTENSIONS
      · simp [h2] at hscan
      · rw [if_neg h2] at hscan
        by_cases h3 : ev.stable
        · rw [if_pos h3] at hscan
          by_cases h4 : ev.tRead - last > delay
          · exact h4
          · rw [if_neg h4] at hscan
            exact absurd hscan Bool.false_ne_true
        · rw [if_neg h3] at hscan
          exact absurd hscan Bool.false_ne_true

theorem burst_at_most_one_scan_witness :
    (runEvents 5 0
        [⟨false, "a.pdf", true, 10, 10⟩, ⟨false, "b.pdf", true, 11, 11⟩]).2 ≤ 1 ∧
    (10 : Int) - 0 > 5 :=
  ⟨(burst_at_most_one_scan 5).1 0 _ (by decide) (by decide),
    (burst_at_most_one_scan 5).2 0 ⟨false, "a.pdf", true, 10, 10⟩ (by decide)⟩

/-! ## Claim C3: same-named dispatches get distinct `name(n)` names -/

theorem find_destination_nil (name : String) : find_destination [] name = name := by
  rw [find_destination]
  simp only [List.length_nil, Nat.zero_add, collision_search, List.not_mem_nil,
    if_false]
  rfl

theorem find_destination_range (name : String) (n : Nat) :
    find_destination ((List.range n).map (collision_candidate name)) name =
      collision_candidate name n := by
  obtain ⟨k, hk, hfree, hmin⟩ := find_destination_spec
    ((List.range n).map (collision_candidate name)) name
  have hmem : ∀ j, collision_candidate name j ∈
      (List.range n).map (collision_candidate name) ↔ j < n := by
    intro j
    constructor
    · intro hj
      rcases List.mem_map.mp hj with ⟨i, hi, hij⟩
      have hji := collision_candidate_injective name hij
      rw [← hji]
      exact List.mem_range.mp hi
    · intro hj
      exact List.mem_map_of_mem _ (List.mem_range.mpr hj)
  have h1 : ¬ k < n := fun h => hfree ((hmem k).mpr h)
  have h2 : ¬ n < k := fun h => by
    have := (hmem n).mp (hmin n h)
    omega
  have hkn : k = n := by omega
  rw [hk, hkn]

theorem move_round_first (cat name : String) (hne : name ≠ cat) :
    move_file (fun _ => false) (fun _ => false) ⟨[name], []⟩ name cat =
      (⟨[], [(cat, [name])]⟩, none) := by
  have hco : ([name].contains cat) = false := by
    simp only [List.contains_cons, List.contains_nil, Bool.or_false, beq_iff_eq]
    exact decide_eq_false fun h => hne h.symm
  rw [move_file, move_file_try]
  simp only [FS.existsInRoot, FS.dirContents, List.lookup_nil, Option.isSome_none,
    Bool.false_or, hco, if_false, Bool.false_eq_true, FS.mkdirRoot, List.nil_append]
  simp only [List.lookup_cons_self, Option.getD_some, Option.isSome_some,
    Bool.true_and, List.contains_cons, List.contains_nil, Bool.or_false,
    beq_self_eq_true, Bool.not_true, Bool.false_or, if_false, find_destination_nil,
    FS.removeRootFile, FS.addToDir, List.map_cons, List.map_nil, if_pos rfl,
    List.erase_cons_head, List.nil_append]
  simp

theorem move_round (cat name : String) (L : List String) :
    move_file (fun _ => false) (fun _ => false) ⟨[name], [(cat, L)]⟩ name cat =
      (⟨[], [(cat, L ++ [find_destination L name])]⟩, none) := by
  rw [move_file, move_file_try]
  simp only [FS.existsInRoot, FS.dirContents, List.lookup_cons_self,
    Option.isSome_some, Bool.true_or, if_true, Option.getD_some,
    Bool.true_and, List.contains_cons, List.contains_nil, Bool.or_false,
    beq_self_eq_true, Bool.not_true, Bool.false_or, Bool.false_eq_true, if_false,
    FS.removeRootFile, FS.addToDir, List.map_cons, List.map_nil, if_pos rfl,
    List.erase_cons_head]

theorem dispatchN_eq (cat name : String) (hne : name ≠ cat) :
    ∀ N, 1 ≤ N → dispatchN cat name N =
      ⟨[], [(cat, (List.range N).map (collision_candidate name))]⟩ := by
  intro N
  induction N with
  | zero => intro h; omega
  | succ n ih =>
    intro _
    rw [dispatchN]
    cases Nat.eq_zero_or_pos n with
    | inl h0 =>
      subst h0
      show (move_file (fun _ => false) (fun _ => false) ⟨[name], []⟩ name cat).1 = _
      rw [move_round_first cat name hne]
      simp [collision_candidate, List.range_succ]
    | inr hpos =>
      rw [ih hpos]
      show (move_file (fun _ => false) (fun _ => false)
        ⟨[name], [(cat, (List.range n).map (collision_candidate name))]⟩ name cat).1 = _
      rw [move_round cat name _]
      rw [find_destination_range, List.range_succ, List.map_append, List.map_cons,
        List.map_nil]

/-- C3 (amended): for `N ≥ 1`, dispatching `N` files sharing a name into
the same category directory yields `N` distinct files named
`name, stem(1)suffix, …, stem(N-1)suffix`; candidates are probed for
increasing `n` starting at the plain name, the lowest-index non-existing
candidate is chosen, and no existing name is ever reused — *provided* the
file's name differs from the category directory's name (see the
counterexample for a file named like its own category). -/
theorem dispatchN_distinct (cat name : String) (N : Nat)
    (hN : 1 ≤ N) (hne : name ≠ cat) :
    (dispatchN cat name N).dirContents cat =
      some ((List.range N).map (collision_candidate name)) ∧
    ((List.range N).map (collision_candidate name)).Nodup ∧
    (∀ (existing : List String) (m : String),
      find_destination existing m ∉ existing ∧
      ∃ k, find_destination existing m = collision_candidate m k ∧
        ∀ j, j < k → collision_candidate m j ∈ existing) := by
  refine ⟨?_, ?_, ?_⟩
  · rw [dispatchN_eq cat name hne N hN, FS.dirContents]
    simp
  · exact (List.nodup_range N).map (collision_candidate_injective name)
  · intro existing m
    obtain ⟨k, hk, hfree, hmin⟩ := find_destination_spec existing m
    exact ⟨hk ▸ hfree, k, hk, hmin⟩

theorem dispatchN_distinct_witness :
    (dispatchN "images" "a.pdf" 2).dirContents "images" =
      some ((List.range 2).map (collision_candidate "a.pdf")) ∧
    ((List.range 2).map (collision_candidate "a.pdf")).Nodup ∧
    (∀ (existing : List String) (m : String),
      find_destination existing m ∉ existing ∧
      ∃ k, find_destination existing m = collision_candidate m k ∧
        ∀ j, j < k → collision_candidate m j ∈ existing) :=
  dispatchN_distinct "images" "a.pdf" 2 (by decide) (by decide)

/-- The concrete names of the first two collision candidates for
`"a.pdf"`: the plain name, then `a(1).pdf`. -/
theorem collision_candidate_concrete :
    (List.range 2).map (collision_candidate "a.pdf") = ["a.pdf", "a(1).pdf"] := by
  decide

/-- C3 counterexample: dispatching one file named `"others"` into category
directory `"others"` produces *no* file in the category directory — the
source file itself makes `extension.exists()` true, suppressing `mkdir`,
and `shutil.move` then fails, so the file stays in the root.  The claim as
stated promises one file named `"others"` in the category directory. -/
theorem dispatch_same_name_as_category_fails :
    (dispatchN "others" "others" 1).rootFiles = ["others"] ∧
    (dispatchN "others" "others" 1).dirs = [] := by
  decide

/-! ## Scan bookkeeping: directory names and total relocated count -/

/-- Names of the subdirectories of the root. -/
def FS.dirNames (fs : FS) : List String := fs.dirs.map Prod.fst

/-- Total number of files inside all subdirectories of the root. -/
def FS.totalDirEntries (fs : FS) : Nat := (fs.dirs.map (fun p => p.2.length)).sum

theorem dirContents_isSome_iff (fs : FS) (d : String) :
    (fs.dirContents d).isSome = true ↔ d ∈ fs.dirNames := by
  rw [FS.dirContents, List.lookup_isSome_iff, FS.dirNames]
  constructor
  · rintro ⟨p, hp, hpd⟩
    exact (beq_iff_eq.mp hpd) ▸ List.mem_map_of_mem _ hp
  · intro hd
    rcases List.mem_map.mp hd with ⟨p, hp, hpd⟩
    exact ⟨p, hp, beq_iff_eq.mpr hpd.symm⟩

theorem mkdirRoot_rootFiles (fs : FS) (d : String) :
    (fs.mkdirRoot d).rootFiles = fs.rootFiles := rfl

theorem mkdirRoot_dirNames (fs : FS) (d : String) :
    (fs.mkdirRoot d).dirNames = fs.dirNames ++ [d] := by
  show (fs.dirs ++ [(d, [])]).map Prod.fst = fs.dirs.map Prod.fst ++ [d]
  rw [List.map_append]
  rfl

theorem mkdirRoot_totalDirEntries (fs : FS) (d : String) :
    (fs.mkdirRoot d).totalDirEntries = fs.totalDirEntries := by
  show ((fs.dirs ++ [(d, [])]).map (fun p : String × List String => p.2.length)).sum = _
  rw [List.map_append, List.sum_append]
  rfl

theorem addToDir_rootFiles (fs : FS) (d x : String) :
    (fs.addToDir d x).rootFiles = fs.rootFiles := rfl

theorem map_fst_update (d x : String) :
    ∀ dirs : List (String × List String),
      (dirs.map fun p => if p.1 = d then (p.1, p.2 ++ [x]) else p).map Prod.fst =
        dirs.map Prod.fst := by
  intro dirs
  induction dirs with
  | nil => rfl
  | cons p ps ih =>
    rw [List.map_cons, List.map_cons, List.map_cons, ih]
    by_cases h : p.1 = d <;> simp [h]

theorem addToDir_dirNames (fs : FS) (d x : String) :
    (fs.addToDir d x).dirNames = fs.dirNames :=
  map_fst_update d x fs.dirs

theorem sum_map_update_lengths (d x : String) :
    ∀ dirs : List (String × List String),
      (dirs.map Prod.fst).Nodup → (dirs.lookup d).isSome = true →
      ((dirs.map fun p => if p.1 = d then (p.1, p.2 ++ [x]) else p).map
          (fun p => p.2.length)).sum =
        (dirs.map (fun p => p.2.length)).sum + 1 := by
  intro dirs
  induction dirs with
  | nil => intro _ hd; simp at hd
  | cons p ps ih =>
    intro hk hd
    rw [List.map_cons] at hk
    have hk2 := List.Nodup.of_cons hk
    rw [List.map_cons]
    by_cases hp : p.1 = d
    · rw [if_pos hp]
      have hps : ∀ q ∈ ps, (if q.1 = d then (q.1, q.2 ++ [x]) else q) = q := by
        intro q hq
        have hqd : q.1 ≠ d := by
          intro hqd
          have hnc := List.nodup_cons.mp hk
          have hmem : q.1 ∈ ps.map Prod.fst := List.mem_map_of_mem Prod.fst hq
          apply hnc.1
          rw [hp, ← hqd]
          exact hmem
        rw [if_neg hqd]
      rw [List.map_congr_left hps, List.map_id', List.map_cons, List.map_cons,
        List.sum_cons, List.sum_cons]
      simp only [List.length_append, List.length_singleton]
      omega
    · rw [if_neg hp]
      rw [List.lookup_cons] at hd
      have hbeq : (d == p.1) = false := by
        simp only [beq_eq_false_iff_ne, ne_eq]
        exact fun h => hp h.symm
      rw [hbeq] at hd
      rw [List.map_cons, List.map_cons, List.sum_cons, List.sum_cons, ih hk2 hd]
      omega

theorem addToDir_totalDirEntries (fs : FS) (d x : String)
    (hk : fs.dirNames.Nodup) (hd : (fs.dirContents d).isSome = true) :
    (fs.addToDir d x).totalDirEntries = fs.totalDirEntries + 1 :=
  sum_map_update_lengths d x fs.dirs hk hd

theorem removeRootFile_dirs (fs : FS) (n : String) :
    (fs.removeRootFile n).dirs = fs.dirs := rfl

/-- Normal form of `move_file`: the three raise points and the success
path, by case analysis on the filesystem and the failure oracles. -/
theorem move_file_eq (mkf mvf : String → Bool) (fs : FS) (name cat : String) :
    move_file mkf mvf fs name cat =
      if fs.existsInRoot cat then
        if mvf name || !((fs.dirContents cat).isSome && fs.rootFiles.contains name) then
          (fs, some ("Cannot move files or create sub folders: " ++ "shutil.move raised"))
        else
          ((fs.removeRootFile name).addToDir cat
            (find_destination ((fs.dirContents cat).getD []) name), none)
      else if mkf cat then
        (fs, some ("Cannot move files or create sub folders: " ++ "mkdir raised"))
      else
        if mvf name ||
            !(((fs.mkdirRoot cat).dirContents cat).isSome &&
              (fs.mkdirRoot cat).rootFiles.contains name) then
          (fs.mkdirRoot cat,
            some ("Cannot move files or create sub folders: " ++ "shutil.move raised"))
        else
          (((fs.mkdirRoot cat).removeRootFile name).addToDir cat
            (find_destination (((fs.mkdirRoot cat).dirContents cat).getD []) name), none) := by
  rw [move_file, move_file_try]
  by_cases hA : fs.existsInRoot cat = true
  · simp only [if_pos hA]
    by_cases hC : (mvf name ||
        !((fs.dirContents cat).isSome && fs.rootFiles.contains name)) = true
    · simp only [if_pos hC]
    · simp only [if_neg hC]
  · simp only [if_neg hA]
    by_cases hB : mkf cat = true
    · simp only [if_pos hB]
    · simp only [if_neg hB]
      by_cases hC : (mvf name ||
          !(((fs.mkdirRoot cat).dirContents cat).isSome &&
            (fs.mkdirRoot cat).rootFiles.contains name)) = true
      · simp only [if_pos hC]
      · simp only [if_neg hC]

/-! ## State effect of one `move_file` call -/

theorem move_file_some_state (mkf mvf : String → Bool) (fs : FS) (name cat msg : String)
    (h : (move_file mkf mvf fs name cat).2 = some msg) :
    (move_file mkf mvf fs name cat).1.rootFiles = fs.rootFiles ∧
    (move_file mkf mvf fs name cat).1.totalDirEntries = fs.totalDirEntries := by
  rw [move_file_eq]
  by_cases h1 : fs.existsInRoot cat = true
  · rw [if_pos h1]
    by_cases h2 : (mvf name ||
        !((fs.dirContents cat).isSome && fs.rootFiles.contains name)) = true
    · rw [if_pos h2]
      exact ⟨rfl, rfl⟩
    · rw [move_file_eq, if_pos h1, if_neg h2] at h
      exact absurd h (by simp)
  · rw [if_neg h1]
    by_cases h3 : mkf cat = true
    · rw [if_pos h3]
      exact ⟨rfl, rfl⟩
    · rw [if_neg h3]
      by_cases h4 : (mvf name ||
          !(((fs.mkdirRoot cat).dirContents cat).isSome &&
            (fs.mkdirRoot cat).rootFiles.contains name)) = true
      · rw [if_pos h4]
        exact ⟨mkdirRoot_rootFiles fs cat, mkdirRoot_totalDirEntries fs cat⟩
      · rw [move_file_eq, if_neg h1, if_neg h3, if_neg h4] at h
        exact absurd h (by simp)

theorem move_file_dirNames_superset (mkf mvf : String → Bool) (fs : FS)
    (name cat d : String) (hd : d ∈ fs.dirNames) :
    d ∈ (move_file mkf mvf fs name cat).1.dirNames := by
  rw [move_file_eq]
  by_cases h1 : fs.existsInRoot cat = true
  · rw [if_pos h1]
    by_cases h2 : (mvf name ||
        !((fs.dirContents cat).isSome && fs.rootFiles.contains name)) = true
    · rw [if_pos h2]
      exact hd
    · rw [if_neg h2, addToDir_dirNames]
      exact hd
  · rw [if_neg h1]
    by_cases h3 : mkf cat = true
    · rw [if_pos h3]
      exact hd
    · rw [if_neg h3]
      by_cases h4 : (mvf name ||
          !(((fs.mkdirRoot cat).dirContents cat).isSome &&
            (fs.mkdirRoot cat).rootFiles.contains name)) = true
      · rw [if_pos h4, mkdirRoot_dirNames]
        exact List.mem_append_left _ hd
      · rw [if_neg h4, addToDir_dirNames]
        show d ∈ ((fs.mkdirRoot cat).removeRootFile name).dirs.map Prod.fst
        rw [removeRootFile_dirs,
          show ((fs.mkdirRoot cat).dirs.map Prod.fst) = (fs.mkdirRoot cat).dirNames from rfl,
          mkdirRoot_dirNames]
        exact List.mem_append_left _ hd

theorem mkdirRoot_dirNames_nodup (fs : FS) (cat : String)
    (hk : fs.dirNames.Nodup) (h1 : ¬ fs.existsInRoot cat = true) :
    (fs.mkdirRoot cat).dirNames.Nodup := by
  rw [mkdirRoot_dirNames, List.nodup_append]
  refine ⟨hk, List.nodup_singleton cat, ?_⟩
  intro a ha hb
  rw [List.mem_singleton] at hb
  subst hb
  have hsome : (fs.dirContents a).isSome = true := (dirContents_isSome_iff fs a).mpr ha
  rw [FS.existsInRoot] at h1
  simp [hsome] at h1

theorem move_file_dirNames_nodup (mkf mvf : String → Bool) (fs : FS)
    (name cat : String) (hk : fs.dirNames.Nodup) :
    (move_file mkf mvf fs name cat).1.dirNames.Nodup := by
  rw [move_file_eq]
  by_cases h1 : fs.existsInRoot cat = true
  · rw [if_pos h1]
    by_cases h2 : (mvf name ||
        !((fs.dirContents cat).isSome && fs.rootFiles.contains name)) = true
    · rw [if_pos h2]
      exact hk
    · rw [if_neg h2, addToDir_dirNames]
      exact hk
  · rw [if_neg h1]
    by_cases h3 : mkf cat = true
    · rw [if_pos h3]
      exact hk
    · rw [if_neg h3]
      by_cases h4 : (mvf name ||
          !(((fs.mkdirRoot cat).dirContents cat).isSome &&
            (fs.mkdirRoot cat).rootFiles.contains name)) = true
      · rw [if_pos h4]
        exact mkdirRoot_dirNames_nodup fs cat hk h1
      · rw [if_neg h4, addToDir_dirNames]
        show (((fs.mkdirRoot cat).removeRootFile name).dirs.map Prod.fst).Nodup
        rw [removeRootFile_dirs,
          show ((fs.mkdirRoot cat).dirs.map Prod.fst) = (fs.mkdirRoot cat).dirNames from rfl]
        exact mkdirRoot_dirNames_nodup fs cat hk h1

theorem move_file_none_state (mkf mvf : String → Bool) (fs : FS) (name cat : String)
    (hk : fs.dirNames.Nodup) (h : (move_file mkf mvf fs name cat).2 = none) :
    (move_file mkf mvf fs name cat).1.rootFiles = fs.rootFiles.erase name ∧
    (move_file mkf mvf fs name cat).1.totalDirEntries = fs.totalDirEntries + 1 ∧
    cat ∈ (move_file mkf mvf fs name cat).1.dirNames := by
  rw [move_file_eq]
  by_cases h1 : fs.existsInRoot cat = true
  · rw [if_pos h1]
    by_cases h2 : (mvf name ||
        !((fs.dirContents cat).isSome && fs.rootFiles.contains name)) = true
    · rw [move_file_eq, if_pos h1, if_pos h2] at h
      exact absurd h (by simp)
    · rw [if_neg h2]
      have h2f : (mvf name ||
          !((fs.dirContents cat).isSome && fs.rootFiles.contains name)) = false :=
        Bool.eq_false_iff.mpr h2
      rcases Bool.or_eq_false_iff.mp h2f with ⟨-, hnc⟩
      have hc : ((fs.dirContents cat).isSome && fs.rootFiles.contains name) = true := by
        simpa using hnc
      have hsome : (fs.dirContents cat).isSome = true := (Bool.and_eq_true_iff.mp hc).1
      refine ⟨rfl, ?_, ?_⟩
      · have hrm : ((fs.removeRootFile name).dirContents cat).isSome = true := hsome
        show ((fs.removeRootFile name).addToDir cat
          (find_destination ((fs.dirContents cat).getD []) name)).totalDirEntries =
            fs.totalDirEntries + 1
        have hk2 : (fs.removeRootFile name).dirNames.Nodup := hk
        rw [addToDir_totalDirEntries _ _ _ hk2 hrm]
        rfl
      · rw [addToDir_dirNames]
        exact (dirContents_isSome_iff fs cat).mp hsome
  · rw [if_neg h1]
    by_cases h3 : mkf cat = true
    · rw [move_file_eq, if_neg h1, if_pos h3] at h
      exact absurd h (by simp)
    · rw [if_neg h3]
      by_cases h4 : (mvf name ||
          !(((fs.mkdirRoot cat).dirContents cat).isSome &&
            (fs.mkdirRoot cat).rootFiles.contains name)) = true
      · rw [move_file_eq, if_neg h1, if_neg h3, if_pos h4] at h
        exact absurd h (by simp)
      · rw [if_neg h4]
        have hknew : (fs.mkdirRoot cat).dirNames.Nodup :=
          mkdirRoot_dirNames_nodup fs cat hk h1
        have h4f : (mvf name ||
            !(((fs.mkdirRoot cat).dirContents cat).isSome &&
              (fs.mkdirRoot cat).rootFiles.contains name)) = false :=
          Bool.eq_false_iff.mpr h4
        rcases Bool.or_eq_false_iff.mp h4f with ⟨-, hnc⟩
        have hc : (((fs.mkdirRoot cat).dirContents cat).isSome &&
            (fs.mkdirRoot cat).rootFiles.contains name) = true := by
          simpa using hnc
        have hsome : ((fs.mkdirRoot cat).dirContents cat).isSome = true :=
          (Bool.and_eq_true_iff.mp hc).1
        refine ⟨rfl, ?_, ?_⟩
        · have hrm : (((fs.mkdirRoot cat).removeRootFile name).dirContents cat).isSome =
              true := hsome
          show (((fs.mkdirRoot cat).removeRootFile name).addToDir cat
            (find_destination (((fs.mkdirRoot cat).dirContents cat).getD [])
              name)).totalDirEntries = fs.totalDirEntries + 1
          have hknew2 : ((fs.mkdirRoot cat).removeRootFile name).dirNames.Nodup := hknew
          rw [addToDir_totalDirEntries _ _ _ hknew2 hrm,
            show ((fs.mkdirRoot cat).removeRootFile name).totalDirEntries =
              (fs.mkdirRoot cat).totalDirEntries from rfl, mkdirRoot_totalDirEntries]
        · rw [addToDir_dirNames]
          show cat ∈ ((fs.mkdirRoot cat).removeRootFile name).dirs.map Prod.fst
          rw [removeRootFile_dirs,
            show ((fs.mkdirRoot cat).dirs.map Prod.fst) = (fs.mkdirRoot cat).dirNames from rfl,
            mkdirRoot_dirNames]
          exact List.mem_append_right _ (List.mem_singleton_self cat)


/-! ## Behaviour of the scan loop -/

theorem organizeGo_cons_file (mkf mvf : String → Bool) (fs : FS) (e : Entry)
    (es : List Entry) (hf : Bool) (h : (e.isFile && !(startsWithDot e.name)) = true) :
    organizeGo mkf mvf fs (e :: es) hf =
      ((organizeGo mkf mvf
          (move_file mkf mvf fs e.name (extension_category (pathSuffix e.name))).1 es true).1,
       (move_file mkf mvf fs e.name (extension_category (pathSuffix e.name))).2.toList ++
         (organizeGo mkf mvf
           (move_file mkf mvf fs e.name (extension_category (pathSuffix e.name))).1 es
           true).2.1,
       (organizeGo mkf mvf
         (move_file mkf mvf fs e.name (extension_category (pathSuffix e.name))).1 es
         true).2.2) := by
  rw [organizeGo, if_pos h]

theorem organizeGo_cons_skip (mkf mvf : String → Bool) (fs : FS) (e : Entry)
    (es : List Entry) (hf : Bool) (h : ¬ (e.isFile && !(startsWithDot e.name)) = true) :
    organizeGo mkf mvf fs (e :: es) hf = organizeGo mkf mvf fs es hf := by
  rw [organizeGo, if_neg h]

theorem organizeGo_append (mkf mvf : String → Bool) :
    ∀ (l1 l2 : List Entry) (fs : FS) (hf : Bool),
      organizeGo mkf mvf fs (l1 ++ l2) hf =
        ((organizeGo mkf mvf (organizeGo mkf mvf fs l1 hf).1 l2
            (organizeGo mkf mvf fs l1 hf).2.2).1,
         (organizeGo mkf mvf fs l1 hf).2.1 ++
           (organizeGo mkf mvf (organizeGo mkf mvf fs l1 hf).1 l2
             (organizeGo mkf mvf fs l1 hf).2.2).2.1,
         (organizeGo mkf mvf (organizeGo mkf mvf fs l1 hf).1 l2
           (organizeGo mkf mvf fs l1 hf).2.2).2.2) := by
  intro l1
  induction l1 with
  | nil => intro l2 fs hf; rfl
  | cons e es ih =>
    intro l2 fs hf
    by_cases h : (e.isFile && !(startsWithDot e.name)) = true
    · rw [List.cons_append, organizeGo_cons_file mkf mvf fs e (es ++ l2) hf h,
        organizeGo_cons_file mkf mvf fs e es hf h, ih, List.append_assoc]
    · rw [List.cons_append, organizeGo_cons_skip mkf mvf fs e (es ++ l2) hf h,
        organizeGo_cons_skip mkf mvf fs e es hf h, ih]

theorem organizeGo_dirNames_mono (mkf mvf : String → Bool) :
    ∀ (entries : List Entry) (fs : FS) (hf : Bool) (d : String),
      d ∈ fs.dirNames → d ∈ (organizeGo mkf mvf fs entries hf).1.dirNames := by
  intro entries
  induction entries with
  | nil => intro fs hf d hd; exact hd
  | cons e es ih =>
    intro fs hf d hd
    by_cases h : (e.isFile && !(startsWithDot e.name)) = true
    · rw [organizeGo_cons_file mkf mvf fs e es hf h]
      exact ih _ true d (move_file_dirNames_superset mkf mvf fs e.name _ d hd)
    · rw [organizeGo_cons_skip mkf mvf fs e es hf h]
      exact ih fs hf d hd

/-- A completed scan with no printed diagnostics removes exactly the
non-hidden files named by the processed file entries from the root, adds
one file to a subdirectory for each of them, and preserves distinctness of
the subdirectory names. -/
theorem organizeGo_no_diag (mkf mvf : String → Bool) :
    ∀ (entries : List Entry) (fs : FS) (hf : Bool),
      fs.rootFiles.Nodup → fs.dirNames.Nodup →
      (organizeGo mkf mvf fs entries hf).2.1 = [] →
      (organizeGo mkf mvf fs entries hf).1.rootFiles =
        fs.rootFiles.filter
          (fun n => !(entries.any fun e => e.isFile && !(startsWithDot n) && e.name == n)) ∧
      (organizeGo mkf mvf fs entries hf).1.totalDirEntries =
        fs.totalDirEntries + entries.countP (fun e => e.isFile && !(startsWithDot e.name)) ∧
      (organizeGo mkf mvf fs entries hf).1.dirNames.Nodup := by
  intro entries
  induction entries with
  | nil =>
    intro fs hf h1 h2 _
    refine ⟨?_, ?_, h2⟩
    · show fs.rootFiles = fs.rootFiles.filter fun n => !([].any fun e => _)
      simp
    · show fs.totalDirEntries = fs.totalDirEntries + List.countP _ []
      simp
  | cons e es ih =>
    intro fs hf hroot hkeys hdiag
    by_cases hcond : (e.isFile && !(startsWithDot e.name)) = true
    · rw [organizeGo_cons_file mkf mvf fs e es hf hcond] at hdiag ⊢
      rcases List.append_eq_nil.mp hdiag with ⟨hmv, hrest⟩
      have hmvnone : (move_file mkf mvf fs e.name
          (extension_category (pathSuffix e.name))).2 = none := by
        cases hx : (move_file mkf mvf fs e.name
            (extension_category (pathSuffix e.name))).2 with
        | none => rfl
        | some m => rw [hx] at hmv; simp at hmv
      obtain ⟨hrf, htot, hcat⟩ := move_file_none_state mkf mvf fs e.name _ hkeys hmvnone
      have hroot2 : (move_file mkf mvf fs e.name
          (extension_category (pathSuffix e.name))).1.rootFiles.Nodup := by
        rw [hrf]; exact hroot.erase e.name
      have hkeys2 := move_file_dirNames_nodup mkf mvf fs e.name
        (extension_category (pathSuffix e.name)) hkeys
      obtain ⟨ha, hb, hc⟩ := ih _ true hroot2 hkeys2 hrest
      rcases Bool.and_eq_true_iff.mp hcond with ⟨hef, hhid⟩
      refine ⟨?_, ?_, hc⟩
      · rw [ha, hrf, List.Nodup.erase_eq_filter hroot, List.filter_filter]
        apply List.filter_congr
        intro n _
        by_cases hn : n = e.name
        · subst hn
          simp [hef, hhid]
        · have hbne : (e.name == n) = false := by
            simp only [beq_eq_false_iff_ne, ne_eq]
            exact fun hx => hn hx.symm
          have hbne2 : (n != e.name) = true := by
            simp only [bne_iff_ne, ne_eq]
            exact hn
          simp [hbne, hbne2]
      · rw [hb, htot, List.countP_cons]
        simp only [hcond, if_pos]
        omega
    · rw [organizeGo_cons_skip mkf mvf fs e es hf hcond] at hdiag ⊢
      obtain ⟨ha, hb, hc⟩ := ih fs hf hroot hkeys hdiag
      refine ⟨?_, ?_, hc⟩
      · rw [ha]
        apply List.filter_congr
        intro n _
        have hmatch : (e.isFile && !(startsWithDot n) && e.name == n) = false := by
          rcases Bool.and_eq_true_iff.not.mp hcond with h
          by_cases hef : e.isFile = true
          · have hhid : ¬ (!(startsWithDot e.name)) = true := fun hx => hcond
              (Bool.and_eq_true_iff.mpr ⟨hef, hx⟩)
            have hhid2 : startsWithDot e.name = true := by
              cases hx : startsWithDot e.name with
              | true => rfl
              | false => exact absurd (by simp [hx]) hhid
            by_cases hnn : (e.name == n) = true
            · have : startsWithDot n = true := beq_iff_eq.mp hnn ▸ hhid2
              simp [this]
            · simp [Bool.eq_false_iff.mpr hnn]
          · simp [Bool.eq_false_iff.mpr hef]
        rw [List.any_cons, hmatch, Bool.false_or]
      · rw [hb, List.countP_cons]
        simp only [hcond]
        simp

/-! ## Claim C4: a completed scan clears the root -/

/-- C4 (amended): after a scan that completes with no failure diagnostics,
every *non-hidden* regular file that was directly in the watched root has
been relocated into a subdirectory: the root retains exactly its hidden
files (plus its subdirectories), and the subdirectories gain one file per
non-hidden root file.  (The original claim, covering every entry and in
particular every file with a non-temporary extension, fails for hidden
files, which the scan skips — see the counterexample.) -/
theorem orgnanize_files_clears_root (mkf mvf : String → Bool) (fs : FS)
    (hroot : fs.rootFiles.Nodup) (hkeys : fs.dirNames.Nodup)
    (hok : (orgnanize_files mkf mvf fs).2.1 = []) :
    (orgnanize_files mkf mvf fs).1.rootFiles =
      fs.rootFiles.filter (fun n => startsWithDot n) ∧
    (orgnanize_files mkf mvf fs).1.totalDirEntries =
      fs.totalDirEntries + fs.rootFiles.countP (fun n => !(startsWithDot n)) := by
  rw [orgnanize_files] at hok ⊢
  obtain ⟨ha, hb, -⟩ := organizeGo_no_diag mkf mvf (rootEntries fs) fs false hroot hkeys hok
  constructor
  · rw [ha]
    apply List.filter_congr
    intro n hn
    by_cases hhid : startsWithDot n = true
    · have hany : (rootEntries fs).any
          (fun e => e.isFile && !(startsWithDot n) && e.name == n) = false := by
        rw [List.any_eq_false]
        intro e _
        simp [hhid]
      rw [hany, hhid]
      rfl
    · have hhidf : startsWithDot n = false := by simpa using hhid
      have hmem : (⟨n, true⟩ : Entry) ∈ rootEntries fs :=
        List.mem_append_left _ (List.mem_map_of_mem _ hn)
      have hany : (rootEntries fs).any
          (fun e => e.isFile && !(startsWithDot n) && e.name == n) = true :=
        List.any_eq_true.mpr ⟨⟨n, true⟩, hmem, by simp [hhidf]⟩
      rw [hany, hhidf]
      rfl
  · rw [hb]
    congr 1
    rw [rootEntries, List.countP_append, List.countP_map, List.countP_map]
    have hdirs : List.countP
        ((fun e : Entry => e.isFile && !(startsWithDot e.name)) ∘
          (fun p : String × List String => ⟨p.1, false⟩)) fs.dirs = 0 := by
      rw [List.countP_eq_zero]
      intro p _
      simp [Function.comp]
    rw [hdirs, Nat.add_zero]
    apply List.countP_congr
    intro n _
    simp [Function.comp]

theorem orgnanize_files_clears_root_witness :
    (orgnanize_files (fun _ => false) (fun _ => false) ⟨["a.pdf"], []⟩).1.rootFiles =
      (["a.pdf"].filter (fun n => startsWithDot n)) ∧
    (orgnanize_files (fun _ => false) (fun _ => false) ⟨["a.pdf"], []⟩).1.totalDirEntries =
      (FS.mk ["a.pdf"] []).totalDirEntries +
        ["a.pdf"].countP (fun n => !(startsWithDot n)) :=
  orgnanize_files_clears_root (fun _ => false) (fun _ => false) ⟨["a.pdf"], []⟩
    (by decide) (by decide) (by decide)

/-- C4 counterexample: a hidden file `".notes.pdf"` — whose suffix `".pdf"`
is *not* temporary — survives a completed, failure-free scan directly in
the watched root, because the scan skips names starting with a dot. -/
theorem hidden_pdf_left_in_root :
    (orgnanize_files (fun _ => false) (fun _ => false) ⟨[".notes.pdf"], []⟩).2.1 = [] ∧
    (orgnanize_files (fun _ => false) (fun _ => false) ⟨[".notes.pdf"], []⟩).1.rootFiles =
      [".notes.pdf"] ∧
    pathSuffix ".notes.pdf" = ".pdf" ∧ ".pdf" ∉ TEMPORARY_EXTENSIONS := by
  decide

/-! ## Claim C7: dispatch failures are contained -/

/-- C7: a failure raised inside the `try` of `move_file` (mkdir or move) is
caught and surfaced only as a printed diagnostic, and the scan loop
processes the remainder of the listing identically after any prefix —
so a per-file dispatch failure never aborts the broader scan. -/
theorem dispatch_failures_contained (mkf mvf : String → Bool) :
    (∀ (fs : FS) (name cat msg : String) (fsE : FS),
      move_file_try mkf mvf fs name cat = .error (msg, fsE) →
      move_file mkf mvf fs name cat =
        (fsE, some ("Cannot move files or create sub folders: " ++ msg))) ∧
    (∀ (l1 l2 : List Entry) (fs : FS) (hf : Bool),
      organizeGo mkf mvf fs (l1 ++ l2) hf =
        ((organizeGo mkf mvf (organizeGo mkf mvf fs l1 hf).1 l2
            (organizeGo mkf mvf fs l1 hf).2.2).1,
         (organizeGo mkf mvf fs l1 hf).2.1 ++
           (organizeGo mkf mvf (organizeGo mkf mvf fs l1 hf).1 l2
             (organizeGo mkf mvf fs l1 hf).2.2).2.1,
         (organizeGo mkf mvf (organizeGo mkf mvf fs l1 hf).1 l2
           (organizeGo mkf mvf fs l1 hf).2.2).2.2)) := by
  constructor
  · intro fs name cat msg fsE h
    rw [move_file, h]
  · exact organizeGo_append mkf mvf

theorem dispatch_failures_contained_witness :
    move_file (fun _ => true) (fun _ => false) ⟨["a.pdf"], []⟩ "a.pdf" "documents" =
      (⟨["a.pdf"], []⟩,
        some ("Cannot move files or create sub folders: " ++ "mkdir raised")) :=
  (dispatch_failures_contained (fun _ => true) (fun _ => false)).1 ⟨["a.pdf"], []⟩
    "a.pdf" "documents" "mkdir raised" ⟨["a.pdf"], []⟩ rfl

/-! ## Claim C10: the scan does not exempt temporary-extension files -/

/-- C10: a non-hidden root file whose suffix is a temporary extension is
dispatched by a (failure-free) scan like any other file: its category
resolves to `"others"` (temporary extensions are absent from the table),
it leaves the root, and the `"others"` subdirectory exists afterwards —
even though creation events for such paths are ignored by the handler. -/
theorem scan_moves_temporary_files (mkf mvf : String → Bool) (fs : FS) (n : String)
    (hroot : fs.rootFiles.Nodup) (hkeys : fs.dirNames.Nodup)
    (hmem : n ∈ fs.rootFiles) (hhid : startsWithDot n = false)
    (htmp : pathSuffix n ∈ TEMPORARY_EXTENSIONS)
    (hok : (orgnanize_files mkf mvf fs).2.1 = []) :
    extension_category (pathSuffix n) = "others" ∧
    n ∉ (orgnanize_files mkf mvf fs).1.rootFiles ∧
    "others" ∈ (orgnanize_files mkf mvf fs).1.dirNames := by
  have hcat : extension_category (pathSuffix n) = "others" := by
    have hall : ∀ s ∈ TEMPORARY_EXTENSIONS, extension_category s = "others" := by decide
    exact hall _ htmp
  have hmem2 : (⟨n, true⟩ : Entry) ∈ rootEntries fs :=
    List.mem_append_left _ (List.mem_map_of_mem _ hmem)
  refine ⟨hcat, ?_, ?_⟩
  · rw [orgnanize_files] at hok ⊢
    obtain ⟨ha, -, -⟩ := organizeGo_no_diag mkf mvf (rootEntries fs) fs false hroot hkeys hok
    rw [ha]
    intro hin
    have hkeep := (List.mem_filter.mp hin).2
    have hany : (rootEntries fs).any
        (fun e => e.isFile && !(startsWithDot n) && e.name == n) = true :=
      List.any_eq_true.mpr ⟨⟨n, true⟩, hmem2, by simp [hhid]⟩
    rw [hany] at hkeep
    simp at hkeep
  · rw [orgnanize_files] at hok ⊢
    obtain ⟨l1, l2, hsplit⟩ := List.append_of_mem hmem2
    rw [hsplit, organizeGo_append] at hok ⊢
    rcases List.append_eq_nil.mp hok with ⟨hd1, hd2⟩
    have hcond : ((⟨n, true⟩ : Entry).isFile &&
        !(startsWithDot (⟨n, true⟩ : Entry).name)) = true := by
      simp [hhid]
    rw [organizeGo_cons_file mkf mvf _ _ _ _ hcond] at hd2 ⊢
    rcases List.append_eq_nil.mp hd2 with ⟨hmv, -⟩
    have hmvnone : (move_file mkf mvf (organizeGo mkf mvf fs l1 false).1 n
        (extension_category (pathSuffix n))).2 = none := by
      cases hx : (move_file mkf mvf (organizeGo mkf mvf fs l1 false).1 n
          (extension_category (pathSuffix n))).2 with
      | none => rfl
      | some m => rw [hx] at hmv; simp at hmv
    obtain ⟨-, -, hk1⟩ := organizeGo_no_diag mkf mvf l1 fs false hroot hkeys hd1
    obtain ⟨-, -, hcatmem⟩ := move_file_none_state mkf mvf
      (organizeGo mkf mvf fs l1 false).1 n (extension_category (pathSuffix n)) hk1 hmvnone
    have hfin := organizeGo_dirNames_mono mkf mvf l2 _ true _ hcatmem
    exact hcat ▸ hfin

theorem scan_moves_temporary_files_witness :
    extension_category (pathSuffix "setup.tmp") = "others" ∧
    "setup.tmp" ∉ (orgnanize_files (fun _ => false) (fun _ => false)
      ⟨["setup.tmp"], []⟩).1.rootFiles ∧
    "others" ∈ (orgnanize_files (fun _ => false) (fun _ => false)
      ⟨["setup.tmp"], []⟩).1.dirNames :=
  scan_moves_temporary_files (fun _ => false) (fun _ => false) ⟨["setup.tmp"], []⟩
    "setup.tmp" (by decide) (by decide) (by decide) (by decide) (by decide) (by decide)

end DownloadOrganizer
